import Mathlib

/-!
Verification of the `rings` repository's `Shape` component (`src/shape.py`)
and of the documented `RingFinder` contract, as a shallow embedding in Lean.

Conventions of the embedding:
* Python nodes are opaque comparable identifiers; the tests use integers, so
  nodes are modelled as `ℕ`.
* Coordinates are 2-component real vectors (numpy arrays of floats in the
  code); they are modelled as exact rationals `ℚ × ℚ`.
* A Python `frozenset` edge (as produced by `node_list_to_edges`) is an
  unordered collection of nodes, modelled as `Finset ℕ`.  `Shape` itself
  simply freezes whatever edge collection it is given, so the `Shape`
  structure is parametric in the edge type: instantiating it with `ℕ × ℕ`
  models edges supplied as ordered Python tuples, instantiating it with
  `Finset ℕ` models edges supplied as frozensets.
* A Python coordinate dictionary is modelled as `Option (ℕ → ℚ × ℚ)`:
  `none` is Python `None` (an "abstract" shape); `some f` a populated dict.
* Python exceptions are modelled by `Except PyError`; `min`/index errors in
  `to_node_list` are modelled by `Option`.
-/

namespace Rings

abbrev Node := ℕ

abbrev Coord := ℚ × ℚ

/-- The kinds of Python exception relevant to `Shape.merge`:
`ValueError` is raised explicitly by `merge`; `TypeError` is what Python
raises when `merge` subscripts a `None` coordinate dictionary. -/
inductive PyError where
  | valueError
  | typeError
deriving DecidableEq

/-- The list of cyclically consecutive pairs `(node_list[i], node_list[(i+1) % n])`
for `i = 0 .. n-1`, exactly the index pairs traversed by the loops of
`calculate_polygon_area` and `node_list_to_edges` (ring case). -/
def cyclicPairs (node_list : List Node) : List (Node × Node) :=
  node_list.zip (node_list.rotate 1)

/-- One term of the Shoelace sum of `calculate_polygon_area`:
`this_coord[0] * next_coord[1] - this_coord[1] * next_coord[0]`. -/
def shoelaceTerm (coords_dict : Node → Coord) (a b : Node) : ℚ :=
  (coords_dict a).1 * (coords_dict b).2 - (coords_dict a).2 * (coords_dict b).1

/-- The cyclic sum of `f` over consecutive pairs of `L` (with wrap-around),
i.e. the accumulated value of a Python loop
`for i, node in enumerate(L): acc += f(L[i], L[(i+1) % len(L)])`. -/
def cyclicSum (f : Node → Node → ℚ) (L : List Node) : ℚ :=
  ((cyclicPairs L).map (fun p => f p.1 p.2)).sum

/-- Function `calculate_polygon_area` from `src/shape.py`: the signed Shoelace area of
the polygon given by `node_list`, `0.5 * Σᵢ (xᵢ * yᵢ₊₁ - yᵢ * xᵢ₊₁)` with
indices cyclic modulo `len(node_list)`. -/
def calculate_polygon_area (node_list : List Node) (coords_dict : Node → Coord) : ℚ :=
  (1 / 2) * cyclicSum (shoelaceTerm coords_dict) node_list

/-- Function `node_list_to_edges` from `src/shape.py`: the set of `frozenset` edges
`{L[i], L[(i+1) % n]}` for `i` in `range(n + offset)`, where `offset = 0`
for a ring and `-1` for an open chain. -/
def node_list_to_edges (node_list : List Node) (is_ring : Bool := true) : Finset (Finset Node) :=
  if is_ring then
    ((cyclicPairs node_list).map (fun p => ({p.1, p.2} : Finset Node))).toFinset
  else
    ((node_list.zip node_list.tail).map (fun p => ({p.1, p.2} : Finset Node))).toFinset

/-- The unordered edge `{L[i], L[(i+1) % n]}` of the ring described by the
node list `L` — the `i`-th edge produced by `node_list_to_edges L`. -/
def ringEdge (L : List Node) (i : Fin L.length) : Finset Node :=
  {L.get i, L.get ⟨((i : ℕ) + 1) % L.length, Nat.mod_lt _ i.pos⟩}

/-- The `Shape` class of `src/shape.py`: a frozen set of edges plus an
optional coordinate dictionary, shared by reference.  The edge type is a
parameter because the Python constructor freezes whatever edge values it is
handed (ordered tuples or frozensets alike) without normalising them. -/
structure Shape (α : Type) where
  edges : Finset α
  coords_dict : Option (Node → Coord)

/-- The Python constructor `Shape(edges, coords_dict)`: `self.edges =
frozenset(edges)` — deduplication by the set, no other normalisation. -/
def Shape.ofList {α : Type} [DecidableEq α] (edges : List α)
    (coords_dict : Option (Node → Coord)) : Shape α :=
  ⟨edges.toFinset, coords_dict⟩

/-- Python `Shape.__eq__`: two shapes are equal iff their frozen edge sets are. -/
def Shape.pyEq {α : Type} (s t : Shape α) : Prop :=
  s.edges = t.edges

instance {α : Type} [DecidableEq α] (s t : Shape α) : Decidable (s.pyEq t) := by
  unfold Shape.pyEq; infer_instance

/-- Python `Shape.__len__`: the number of edges. -/
def Shape.pyLen {α : Type} (s : Shape α) : ℕ :=
  s.edges.card

/-- Python `Shape.__contains__`: membership in the frozen edge set. -/
def Shape.pyContains {α : Type} (s : Shape α) (e : α) : Prop :=
  e ∈ s.edges

instance {α : Type} [DecidableEq α] (s : Shape α) (e : α) : Decidable (s.pyContains e) := by
  unfold Shape.pyContains; infer_instance

/-- Python `Shape.__hash__` returns `hash(self.edges)`; the hash is a function of
the frozen edge set alone, which we model by exposing that determining key. -/
def Shape.hashKey {α : Type} (s : Shape α) : Finset α :=
  s.edges

/-- A shape over frozenset edges, the form produced by `node_list_to_edges`
and by the ring finders. -/
abbrev ShapeN := Shape (Finset Node)

/-- The `Shape.nodes` property: the union of all nodes of all edges. -/
def Shape.nodes (s : ShapeN) : Finset Node :=
  s.edges.sup id

/-- Python's `min` over a finite set, `None` (a raised `ValueError`) when the
set is empty. -/
def fmin (s : Finset ℕ) : Option ℕ :=
  if h : s.Nonempty then some (s.min' h) else none

/-- Method `Shape.merge` from `src/shape.py`.  The merged edge set is the symmetric
difference `self.edges ^ other.edges`; before returning, the code checks
`np.all(self.coords_dict[node] == other.coords_dict[node])` for every node
common to the two shapes, raising `ValueError` on a mismatch.  If either
coordinate dictionary is `None` and a common node exists, subscripting
`None` raises a `TypeError` instead.  The result shares `self.coords_dict`. -/
def Shape.merge (A B : ShapeN) : Except PyError ShapeN :=
  let unique_edges := symmDiff A.edges B.edges
  let common_nodes := A.nodes ∩ B.nodes
  match A.coords_dict, B.coords_dict with
  | some f, some g =>
    if ∀ n ∈ common_nodes, f n = g n then .ok ⟨unique_edges, A.coords_dict⟩
    else .error .valueError
  | _, _ =>
    if common_nodes = ∅ then .ok ⟨unique_edges, A.coords_dict⟩
    else .error .typeError

/-- "The coordinate maps of `A` and `B` agree at node `n`": both shapes carry
a coordinate dictionary and the two dictionaries assign `n` the same
coordinates.  (A shape without coordinates assigns nothing, so it never
agrees.) -/
def coordsAgreeAt (A B : ShapeN) (n : Node) : Prop :=
  match A.coords_dict, B.coords_dict with
  | some f, some g => f n = g n
  | _, _ => False

instance (A B : ShapeN) (n : Node) : Decidable (coordsAgreeAt A B n) := by
  unfold coordsAgreeAt
  rcases A.coords_dict with _ | f <;> rcases B.coords_dict with _ | g <;> infer_instance

/-- One selection step of the `while` loop of `Shape.to_node_list`: collect
the nodes of all edges containing `last_node` (`connected_nodes`), remove
the already seen nodes, and take the minimum (`None` when Python's `min`
would raise on an empty set). -/
def nextNode (edges : Finset (Finset Node)) (last_node : Node)
    (seen_nodes : Finset Node) : Option Node :=
  fmin (((edges.filter (fun e => last_node ∈ e)).sup id) \ seen_nodes)

/-- The `while` loop of `Shape.to_node_list`, run `fuel` times (the Python
loop appends exactly one node per iteration, so it executes a fixed number
of times unless an exception escapes, which is the `none` case here): take
the last node of `node_list`, select the smallest unseen connected node,
append it and update `seen_nodes = set(node_list)`. -/
def tnlLoop (edges : Finset (Finset Node)) :
    ℕ → List Node → Finset Node → Option (List Node)
  | 0, node_list, _ => some node_list
  | fuel + 1, node_list, seen_nodes =>
    match node_list.getLast? with
    | none => none
    | some last_node =>
      match nextNode edges last_node seen_nodes with
      | none => none
      | some next_node =>
        tnlLoop edges fuel (node_list ++ [next_node]) (node_list ++ [next_node]).toFinset

/-- The greedy traversal part of `Shape.to_node_list` (everything before the
winding fix-up): start at the minimum node and repeatedly step to the
smallest unvisited connected node until `len(node_list) == len(self.edges)`. -/
def Shape.rawNodeList (s : ShapeN) : Option (List Node) :=
  match fmin s.nodes with
  | none => none
  | some m => tnlLoop s.edges (s.edges.card - 1) [m] ([m] : List Node).toFinset

/-- Python `node_list[-1:] + node_list[:-1]`: rotate the last element to the front. -/
def rotLastFront (l : List Node) : List Node :=
  l.getLast?.toList ++ l.dropLast

/-- Method `Shape.to_node_list` from `src/shape.py`: the greedy minimum-first
traversal, followed — when coordinates are available and the signed area of
the traversal is negative — by reversing the list and rotating its last
element (the minimum node) back to the front. -/
def Shape.to_node_list (s : ShapeN) : Option (List Node) :=
  match s.rawNodeList with
  | none => none
  | some node_list =>
    match s.coords_dict with
    | none => some node_list
    | some cd =>
      if calculate_polygon_area node_list cd < 0 then
        some (rotLastFront node_list.reverse)
      else
        some node_list

/-- Predicate: `W` is a cyclic rotation of `L`. -/
def IsRotationOf (W L : List Node) : Prop :=
  ∃ k : ℕ, L.rotate k = W

/-- Cyclic rotation of a list by an arbitrary integer number of positions
(negative = rotate towards the right). -/
def rotateInt (L : List Node) (k : ℤ) : List Node :=
  L.rotate (k % (L.length : ℤ)).toNat

/-- The sum of `f` over consecutive (non-cyclic) pairs of a list; the cyclic
sum decomposes as this chain sum plus the wrap-around term, which is the key
to the reversal and rotation lemmas below. -/
def chainSum (f : Node → Node → ℚ) : List Node → ℚ
  | [] => 0
  | [_] => 0
  | a :: b :: rest => f a b + chainSum f (b :: rest)

/-!
The `RingFinder` component.  `ring_finder.py` is not part of the sources
(only its tests and callers are), so the definitions in this namespace are
modelled from the specification, sections 4.2 ("Angular Face Tracer") and
4.3 ("RingFinder"): order each node's incident edges by angle, trace each
face by always turning to the next half-edge in angular order, classify the
positively-oriented traced faces as `current_rings`, and obtain
`perimeter_rings` by XOR-merging the interior rings of each connected
component.  Coordinates are modelled as exact integer vectors (the inputs of
the scenario under verification are integral); angular comparisons are exact
via cross/dot products, and the positivity of a traced face's signed area is
tested on the doubled Shoelace sum, which has the same sign as
`calculate_polygon_area` (lemma `shoelaceTwiceZ_pos_iff` below).
-/

namespace RF

/-- Integer 2D coordinates for the spec-modelled tracer. -/
abbrev ICoord := ℤ × ℤ

/-- Modelled from the spec: the input of `RingFinder(graph, coords_dict)` —
an undirected graph given by nodes and edges, plus a coordinate map. -/
structure Input where
  nodes : List Node
  edges : List (Node × Node)
  coords : Node → ICoord

/-- Vector difference. -/
def sub (a b : ICoord) : ICoord := (a.1 - b.1, a.2 - b.2)

/-- Cross product (z-component) of two 2D vectors. -/
def cross (a b : ICoord) : ℤ := a.1 * b.2 - a.2 * b.1

/-- Dot product of two 2D vectors. -/
def dot (a b : ICoord) : ℤ := a.1 * b.1 + a.2 * b.2

/-- Modelled from the spec: the incident-edge neighbours of `v` in the input
graph (each undirected edge read in both directions). -/
def nbrs (inp : Input) (v : Node) : List Node :=
  (inp.edges.filterMap (fun e =>
    if e.1 = v then some e.2 else if e.2 = v then some e.1 else none)).dedup

/-- Direction vector from node `u` towards node `v`. -/
def dirTo (inp : Input) (u v : Node) : ICoord := sub (inp.coords v) (inp.coords u)

/-- Coarse classification of the clockwise angle from direction `d` to
direction `w`, in `(0, 2π]`: `0` for `(0, π)` (strictly clockwise side),
`1` for exactly `π`, `2` for `(π, 2π)`, `3` for `2π` (same direction). -/
def angClass (d w : ICoord) : ℕ :=
  if cross d w < 0 then 0
  else if cross d w = 0 ∧ dot d w < 0 then 1
  else if 0 < cross d w then 2
  else 3

/-- Modelled from the spec: `w1` comes strictly before `w2` when sweeping
clockwise from reference direction `d` (exact `atan2`-order comparison via
cross/dot products). -/
def angBeforeB (d w1 w2 : ICoord) : Bool :=
  decide (angClass d w1 < angClass d w2) ||
    (decide (angClass d w1 = angClass d w2) && decide (cross w1 w2 < 0))

/-- Modelled from the spec: the successor of half-edge `(u, v)` in a face
trace — at `v`, pick the neighbour whose direction is the next one in
angular order after the direction back to `u` (the tightest turn, here in
the clockwise sense, so that interior faces are traced counter-clockwise). -/
def nextHalfEdge (inp : Input) (h : Node × Node) : Node × Node :=
  let v := h.2
  let back := dirTo inp v h.1
  let best := (nbrs inp v).foldl (fun acc w =>
    match acc with
    | none => some w
    | some b => if angBeforeB back (dirTo inp v w) (dirTo inp v b) then some w else some b) none
  (v, best.getD h.1)

/-- Modelled from the spec: follow `nextHalfEdge` from `cur` until the trace
returns to the starting half-edge, collecting the visited half-edges (the
fuel bounds the trace length; `2·|edges| + 1` always suffices since every
half-edge belongs to exactly one face). -/
def traceFace (inp : Input) : ℕ → Node × Node → Node × Node → List (Node × Node)
  | 0, _, _ => []
  | fuel + 1, start, cur =>
    cur :: (let nxt := nextHalfEdge inp cur
            if nxt = start then [] else traceFace inp fuel start nxt)

/-- Both directed half-edges of every undirected edge. -/
def allHalfEdges (inp : Input) : List (Node × Node) :=
  inp.edges.flatMap (fun e => [(e.1, e.2), (e.2, e.1)])

/-- The node cycle of a traced face (the source of each half-edge). -/
def faceNodeList (f : List (Node × Node)) : List Node := f.map Prod.fst

/-- The frozenset edge set of a traced face, as stored in a `Shape`. -/
def faceEdgeSet (f : List (Node × Node)) : Finset (Finset Node) :=
  (f.map (fun h => ({h.1, h.2} : Finset Node))).toFinset

/-- Modelled from the spec: trace every face once — walk the half-edges in
order, skipping those consumed by an earlier trace. -/
def allFaces (inp : Input) : List (List (Node × Node)) :=
  ((allHalfEdges inp).foldl (fun acc h =>
    if h ∈ acc.1 then acc
    else
      let f := traceFace inp (2 * inp.edges.length + 1) h h
      (acc.1 ++ f, acc.2 ++ [f])) (([], []) : List (Node × Node) × List (List (Node × Node)))).2

/-- The doubled Shoelace sum over integer coordinates; its sign is the sign
of the signed polygon area. -/
def shoelaceTwiceZ (L : List Node) (c : Node → ICoord) : ℤ :=
  ((cyclicPairs L).map (fun p => cross (c p.1) (c p.2))).sum

/-- Modelled from the spec: `current_rings` — the traced faces of positive
signed area (interior minimal rings), as a Python set of `Shape`s, i.e.
deduplicated by edge set. -/
def current_rings (inp : Input) : Finset (Finset (Finset Node)) :=
  (((allFaces inp).filter (fun f => 0 < shoelaceTwiceZ (faceNodeList f) inp.coords)).map
    faceEdgeSet).toFinset

/-- One step of the reachable-set computation for connected components. -/
def expandComp (inp : Input) (s : List Node) : List Node :=
  (s ++ inp.nodes.filter (fun v => (nbrs inp v).any (fun w => w ∈ s))).dedup

/-- The connected component of `v` in the input graph. -/
def componentOf (inp : Input) (v : Node) : Finset Node :=
  ((expandComp inp)^[inp.nodes.length] [v]).toFinset

/-- All nodes touched by a ring's edge set (`Shape.nodes`). -/
def ringNodes (r : Finset (Finset Node)) : Finset Node := r.sup id

instance : Std.Commutative (α := Finset (Finset Node)) symmDiff := ⟨symmDiff_comm⟩

instance : Std.Associative (α := Finset (Finset Node)) symmDiff := ⟨symmDiff_assoc⟩

/-- Modelled from the spec: `perimeter_rings` — for each connected component,
the XOR-merge (edge symmetric difference, `Shape.merge` on shapes sharing the
one coordinate map) of all interior rings of that component; components that
are fully cancelled contribute no perimeter ring. -/
def perimeter_rings (inp : Input) : Finset (Finset (Finset Node)) :=
  (((inp.nodes.map (componentOf inp)).dedup).map (fun C =>
     Finset.fold symmDiff ∅ id
       ((current_rings inp).filter (fun r => ringNodes r ⊆ C)))).toFinset \ {∅}

/-- The two-unit-squares scenario of claim C1 and of
`TestRingFinder.test_two_squares`: edges
`[0,1],[1,2],[2,3],[3,0],[2,5],[4,5],[3,4]` with the unit-square
coordinates `0 ↦ (0,0), 1 ↦ (0,1), 2 ↦ (1,1), 3 ↦ (1,0), 4 ↦ (2,0),
5 ↦ (2,1)`. -/
def twoSquares : Input where
  nodes := [0, 1, 2, 3, 4, 5]
  edges := [(0, 1), (1, 2), (2, 3), (3, 0), (2, 5), (4, 5), (3, 4)]
  coords := fun n =>
    if n = 0 then (0, 0) else if n = 1 then (0, 1) else if n = 2 then (1, 1)
    else if n = 3 then (1, 0) else if n = 4 then (2, 0) else (2, 1)

end RF

/-! ### Theorems -/

theorem coordsAgreeAt_elim {A B : ShapeN} {n : Node} (h : coordsAgreeAt A B n) :
    ∃ f g, A.coords_dict = some f ∧ B.coords_dict = some g ∧ f n = g n := by
  unfold coordsAgreeAt at h
  rcases hA : A.coords_dict with _ | f
  · rw [hA] at h
    exact h.elim
  · rcases hB : B.coords_dict with _ | g
    · rw [hA, hB] at h
      exact h.elim
    · rw [hA, hB] at h
      exact ⟨f, g, rfl, rfl, h⟩

theorem coordsAgreeAt_intro {A B : ShapeN} {f : Node → Coord} (n : Node)
    (hA : A.coords_dict = some f) (hB : B.coords_dict = some f) :
    coordsAgreeAt A B n := by
  unfold coordsAgreeAt
  rw [hA, hB]

theorem merge_ok_of_agree (A B : ShapeN)
    (h : ∀ n ∈ A.nodes ∩ B.nodes, coordsAgreeAt A B n) :
    A.merge B = .ok ⟨symmDiff A.edges B.edges, A.coords_dict⟩ := by
  have hempty : A.coords_dict = none ∨ B.coords_dict = none → A.nodes ∩ B.nodes = ∅ := by
    intro hnone
    rw [← Finset.not_nonempty_iff_eq_empty]
    rintro ⟨n, hn⟩
    rcases coordsAgreeAt_elim (h n hn) with ⟨f, g, hf, hg, -⟩
    rcases hnone with hnone | hnone
    · rw [hnone] at hf
      exact Option.noConfusion hf
    · rw [hnone] at hg
      exact Option.noConfusion hg
  unfold Shape.merge
  rcases hA : A.coords_dict with _ | f
  · rcases hB : B.coords_dict with _ | g <;>
      simp [hA, hB, hempty (Or.inl hA)]
  · rcases hB : B.coords_dict with _ | g
    · simp [hA, hB, hempty (Or.inr hB)]
    · have hfg : ∀ n ∈ A.nodes ∩ B.nodes, f n = g n := by
        intro n hn
        rcases coordsAgreeAt_elim (h n hn) with ⟨f', g', hf', hg', heq⟩
        rw [hA] at hf'
        rw [hB] at hg'
        obtain rfl := Option.some.inj hf'
        obtain rfl := Option.some.inj hg'
        exact heq
      simp only [hA, hB]
      rw [if_pos hfg]

/-- C2: for every pair of Shapes whose coordinate maps agree on every node
they share, `merge` returns a new Shape whose edge set is exactly the
symmetric difference of the two edge sets: an edge is in the result iff it
belongs to exactly one of the two operands. -/
theorem merge_edges_symmDiff (A B : ShapeN)
    (h : ∀ n ∈ A.nodes ∩ B.nodes, coordsAgreeAt A B n) :
    ∃ s : ShapeN, A.merge B = .ok s ∧
      ∀ e, e ∈ s.edges ↔ (e ∈ A.edges ∧ e ∉ B.edges) ∨ (e ∈ B.edges ∧ e ∉ A.edges) :=
  ⟨_, merge_ok_of_agree A B h, fun _ => Finset.mem_symmDiff⟩

/-- Witness for C2: two triangles sharing the edge `{1, 2}` and the same
coordinate map merge into their symmetric difference. -/
theorem merge_edges_symmDiff_witness :
    ∃ s : ShapeN,
      (Shape.ofList [({0, 1} : Finset Node), {1, 2}, {2, 0}]
          (some fun n => ((n : ℚ), 0))).merge
        (Shape.ofList [({1, 2} : Finset Node), {2, 3}, {3, 1}]
          (some fun n => ((n : ℚ), 0))) = .ok s ∧
      ∀ e, e ∈ s.edges ↔
        (e ∈ (Shape.ofList [({0, 1} : Finset Node), {1, 2}, {2, 0}]
          (some fun n => ((n : ℚ), 0))).edges ∧
         e ∉ (Shape.ofList [({1, 2} : Finset Node), {2, 3}, {3, 1}]
          (some fun n => ((n : ℚ), 0))).edges) ∨
        (e ∈ (Shape.ofList [({1, 2} : Finset Node), {2, 3}, {3, 1}]
          (some fun n => ((n : ℚ), 0))).edges ∧
         e ∉ (Shape.ofList [({0, 1} : Finset Node), {1, 2}, {2, 0}]
          (some fun n => ((n : ℚ), 0))).edges) :=
  merge_edges_symmDiff _ _ (fun n _ => coordsAgreeAt_intro n rfl rfl)


/-- C3: for shapes sharing at least one node, a coordinate mismatch at some
shared node makes `merge` raise `ValueError`, and `merge` succeeds only when
every shared node has identical coordinates in both operands. -/
theorem merge_valueError_of_mismatch (A B : ShapeN)
    (hshare : (A.nodes ∩ B.nodes).Nonempty) :
    (∀ f g, A.coords_dict = some f → B.coords_dict = some g →
      (∃ n ∈ A.nodes ∩ B.nodes, f n ≠ g n) → A.merge B = .error .valueError) ∧
    (∀ s : ShapeN, A.merge B = .ok s → ∀ n ∈ A.nodes ∩ B.nodes, coordsAgreeAt A B n) := by
  constructor
  · rintro f g hA hB ⟨n, hn, hne⟩
    have hnall : ¬ ∀ m ∈ A.nodes ∩ B.nodes, f m = g m := fun hall => hne (hall n hn)
    unfold Shape.merge
    simp only [hA, hB]
    rw [if_neg hnall]
  · intro s hok n hn
    unfold Shape.merge at hok
    rcases hA : A.coords_dict with _ | f <;> rw [hA] at hok
    · rw [Finset.nonempty_iff_ne_empty] at hshare
      rcases hB : B.coords_dict with _ | g <;> rw [hB] at hok <;>
        simp [hshare] at hok
    · rcases hB : B.coords_dict with _ | g <;> rw [hB] at hok
      · rw [Finset.nonempty_iff_ne_empty] at hshare
        simp [hshare] at hok
      · by_cases hcond : ∀ m ∈ A.nodes ∩ B.nodes, f m = g m
        · unfold coordsAgreeAt
          rw [hA, hB]
          exact hcond n hn
        · simp only [] at hok
          rw [if_neg hcond] at hok
          exact Except.noConfusion hok

/-- Witness for C3: two single-edge shapes sharing node 1 with conflicting
coordinate maps. -/
theorem merge_valueError_of_mismatch_witness :
    (∀ f g,
      (Shape.ofList [({0, 1} : Finset Node)] (some fun _ => ((0 : ℚ), 0))).coords_dict = some f →
      (Shape.ofList [({1, 2} : Finset Node)] (some fun _ => ((1 : ℚ), 1))).coords_dict = some g →
      (∃ n ∈ (Shape.ofList [({0, 1} : Finset Node)] (some fun _ => ((0 : ℚ), 0))).nodes ∩
          (Shape.ofList [({1, 2} : Finset Node)] (some fun _ => ((1 : ℚ), 1))).nodes, f n ≠ g n) →
      (Shape.ofList [({0, 1} : Finset Node)] (some fun _ => ((0 : ℚ), 0))).merge
        (Shape.ofList [({1, 2} : Finset Node)] (some fun _ => ((1 : ℚ), 1))) =
          .error .valueError) ∧
    (∀ s : ShapeN,
      (Shape.ofList [({0, 1} : Finset Node)] (some fun _ => ((0 : ℚ), 0))).merge
        (Shape.ofList [({1, 2} : Finset Node)] (some fun _ => ((1 : ℚ), 1))) = .ok s →
      ∀ n ∈ (Shape.ofList [({0, 1} : Finset Node)] (some fun _ => ((0 : ℚ), 0))).nodes ∩
          (Shape.ofList [({1, 2} : Finset Node)] (some fun _ => ((1 : ℚ), 1))).nodes,
        coordsAgreeAt (Shape.ofList [({0, 1} : Finset Node)] (some fun _ => ((0 : ℚ), 0)))
          (Shape.ofList [({1, 2} : Finset Node)] (some fun _ => ((1 : ℚ), 1))) n) :=
  merge_valueError_of_mismatch _ _ (by decide)


/-- C7: merge is involutive — for shapes sharing one coordinate map (so that
neither merge raises), `(A.merge(B)).merge(B)` equals `A` under the edge-set
equality of `Shape.__eq__`. -/
theorem merge_involutive (A B : ShapeN) (f : Node → Coord)
    (hA : A.coords_dict = some f) (hB : B.coords_dict = some f) :
    ∃ C D : ShapeN, A.merge B = .ok C ∧ C.merge B = .ok D ∧ D.pyEq A := by
  refine ⟨⟨symmDiff A.edges B.edges, A.coords_dict⟩,
    ⟨symmDiff (symmDiff A.edges B.edges) B.edges, A.coords_dict⟩,
    merge_ok_of_agree A B (fun n _ => coordsAgreeAt_intro n hA hB), ?_, ?_⟩
  · exact merge_ok_of_agree _ B (fun n _ => coordsAgreeAt_intro n hA hB)
  · show symmDiff (symmDiff A.edges B.edges) B.edges = A.edges
    exact symmDiff_symmDiff_cancel_right B.edges A.edges

/-- Witness for C7: merging a triangle with an adjacent triangle and merging
the second triangle back recovers the first shape. -/
theorem merge_involutive_witness :
    ∃ C D : ShapeN,
      (Shape.ofList [({0, 1} : Finset Node), {1, 2}, {2, 0}]
          (some fun n => ((n : ℚ), 1))).merge
        (Shape.ofList [({1, 2} : Finset Node), {2, 3}, {3, 1}]
          (some fun n => ((n : ℚ), 1))) = .ok C ∧
      C.merge (Shape.ofList [({1, 2} : Finset Node), {2, 3}, {3, 1}]
          (some fun n => ((n : ℚ), 1))) = .ok D ∧
      D.pyEq (Shape.ofList [({0, 1} : Finset Node), {1, 2}, {2, 0}]
          (some fun n => ((n : ℚ), 1))) :=
  merge_involutive _ _ _ rfl rfl

/-- C9: two abstract shapes (no coordinate dictionaries) that share a node
can never be merged — the unconditional coordinate check subscripts `None`
and raises a `TypeError`, not the documented `ValueError`; abstract shapes
merge fine exactly when they share no node. -/
theorem merge_abstract_typeError (A B : ShapeN)
    (hA : A.coords_dict = none) (hB : B.coords_dict = none) :
    ((A.nodes ∩ B.nodes).Nonempty → A.merge B = .error .typeError) ∧
    (A.nodes ∩ B.nodes = ∅ → A.merge B = .ok ⟨symmDiff A.edges B.edges, none⟩) := by
  constructor
  · intro hne
    unfold Shape.merge
    rw [Finset.nonempty_iff_ne_empty] at hne
    simp [hA, hB, hne]
  · intro he
    unfold Shape.merge
    simp [hA, hB, he]

/-- Witness for C9: two abstract single-edge shapes sharing node 1 fail with
`TypeError`; two disjoint abstract shapes merge. -/
theorem merge_abstract_typeError_witness :
    (((Shape.ofList [({0, 1} : Finset Node)] none).nodes ∩
        (Shape.ofList [({1, 2} : Finset Node)] none).nodes).Nonempty →
      (Shape.ofList [({0, 1} : Finset Node)] none).merge
        (Shape.ofList [({1, 2} : Finset Node)] none) = .error .typeError) ∧
    ((Shape.ofList [({0, 1} : Finset Node)] none).nodes ∩
        (Shape.ofList [({1, 2} : Finset Node)] none).nodes = ∅ →
      (Shape.ofList [({0, 1} : Finset Node)] none).merge
        (Shape.ofList [({1, 2} : Finset Node)] none) =
        .ok ⟨symmDiff (Shape.ofList [({0, 1} : Finset Node)] none).edges
          (Shape.ofList [({1, 2} : Finset Node)] none).edges, none⟩) :=
  merge_abstract_typeError _ _ rfl rfl

/-- C4 counterexample: the edges `(0, 1)` and `(1, 0)`, supplied as ordered
tuples, denote the same unordered edge `{0, 1}`, yet the two resulting
shapes are not equal under `Shape.__eq__` — the constructor freezes the
tuples as given, so equality is not independent of tuple orientation. -/
theorem shape_eq_tuple_orientation_counterexample :
    (List.map (fun p => ({p.1, p.2} : Finset Node)) [((0 : Node), (1 : Node))]).toFinset =
      (List.map (fun p => ({p.1, p.2} : Finset Node)) [((1 : Node), (0 : Node))]).toFinset ∧
    ¬ (Shape.ofList [((0 : Node), (1 : Node))] none).pyEq
        (Shape.ofList [((1 : Node), (0 : Node))] none) :=
  ⟨by decide, by decide⟩

/-- C4 (amended): equality, hash, membership and length depend only on the
frozen edge set `frozenset(edges)`: shapes built from edge collections with
the same elements are equal and hash-equal regardless of the order in which
the edges were supplied and regardless of their coordinate maps; `len` is
the number of edges and `e in shape` holds iff `e` is in the edge set.
Tuple-orientation independence, however, holds only when edges are supplied
as unordered pairs — see the counterexample. -/
theorem shape_eq_hash_len_contains_edge_set (α : Type) [DecidableEq α]
    (l1 l2 : List α) (cd1 cd2 : Option (Node → Coord)) (h : l1.toFinset = l2.toFinset) :
    (Shape.ofList l1 cd1).pyEq (Shape.ofList l2 cd2) ∧
    (Shape.ofList l1 cd1).hashKey = (Shape.ofList l2 cd2).hashKey ∧
    (Shape.ofList l1 cd1).pyLen = (Shape.ofList l2 cd2).pyLen ∧
    (∀ e, (Shape.ofList l1 cd1).pyContains e ↔ e ∈ l1.toFinset) ∧
    (Shape.ofList l1 cd1).pyLen = l1.toFinset.card := by
  refine ⟨h, h, ?_, fun e => Iff.rfl, rfl⟩
  show l1.toFinset.card = l2.toFinset.card
  rw [h]

/-- Witness for C4 (amended): the same two unordered edges supplied in a
different order, with different coordinate maps. -/
theorem shape_eq_hash_len_contains_edge_set_witness :
    (Shape.ofList [({0, 1} : Finset Node), {1, 2}] none).pyEq
      (Shape.ofList [({1, 2} : Finset Node), {0, 1}] (some fun _ => ((0 : ℚ), 0))) ∧
    (Shape.ofList [({0, 1} : Finset Node), {1, 2}] none).hashKey =
      (Shape.ofList [({1, 2} : Finset Node), {0, 1}] (some fun _ => ((0 : ℚ), 0))).hashKey ∧
    (Shape.ofList [({0, 1} : Finset Node), {1, 2}] none).pyLen =
      (Shape.ofList [({1, 2} : Finset Node), {0, 1}] (some fun _ => ((0 : ℚ), 0))).pyLen ∧
    (∀ e, (Shape.ofList [({0, 1} : Finset Node), {1, 2}] none).pyContains e ↔
      e ∈ ([({0, 1} : Finset Node), {1, 2}]).toFinset) ∧
    (Shape.ofList [({0, 1} : Finset Node), {1, 2}] none).pyLen =
      ([({0, 1} : Finset Node), {1, 2}]).toFinset.card :=
  shape_eq_hash_len_contains_edge_set _ _ _ _ _ (by decide)

/-- C1: for the two-unit-squares graph of `test_two_squares`, the
spec-modelled `RingFinder` yields exactly 2 interior rings of 4 edges each
and exactly 1 perimeter ring of 6 edges. -/
theorem ringFinder_two_squares :
    (RF.current_rings RF.twoSquares).card = 2 ∧
    (∀ r ∈ RF.current_rings RF.twoSquares, r.card = 4) ∧
    (RF.perimeter_rings RF.twoSquares).card = 1 ∧
    (∀ r ∈ RF.perimeter_rings RF.twoSquares, r.card = 6) := by
  decide

theorem cyclicPairs_cons (h : Node) (t : List Node) :
    cyclicPairs (h :: t) = (h :: t).zip (t ++ [h]) := by
  unfold cyclicPairs
  rw [show (h :: t).rotate 1 = t ++ [h] from by simpa using List.rotate_cons_succ t h 0]

theorem zipSum_chain (f : Node → Node → ℚ) :
    ∀ (t : List Node) (h w : Node),
      (((h :: t).zip (t ++ [w])).map (fun p => f p.1 p.2)).sum =
        chainSum f (h :: t) + f ((h :: t).getLast (List.cons_ne_nil h t)) w := by
  intro t
  induction t with
  | nil =>
    intro h w
    simp [chainSum]
  | cons a t' ih =>
    intro h w
    have hz : (h :: a :: t').zip ((a :: t') ++ [w]) =
        (h, a) :: ((a :: t').zip (t' ++ [w])) := rfl
    rw [hz, List.map_cons, List.sum_cons, ih a w,
      List.getLast_cons (List.cons_ne_nil a t')]
    have hc : chainSum f (h :: a :: t') = f h a + chainSum f (a :: t') := rfl
    rw [hc]
    ring

theorem cyclicSum_cons (f : Node → Node → ℚ) (h : Node) (t : List Node) :
    cyclicSum f (h :: t) =
      chainSum f (h :: t) + f ((h :: t).getLast (List.cons_ne_nil h t)) h := by
  unfold cyclicSum
  rw [cyclicPairs_cons]
  exact zipSum_chain f t h h

theorem cyclicSum_nonempty (f : Node → Node → ℚ) (L : List Node) (hL : L ≠ []) :
    cyclicSum f L = chainSum f L + f (L.getLast hL) (L.head hL) := by
  cases L with
  | nil => exact absurd rfl hL
  | cons a t => simpa using cyclicSum_cons f a t

theorem chainSum_concat (f : Node → Node → ℚ) :
    ∀ (M : List Node) (hM : M ≠ []) (x : Node),
      chainSum f (M ++ [x]) = chainSum f M + f (M.getLast hM) x := by
  intro M
  induction M with
  | nil => intro hM; exact absurd rfl hM
  | cons a M' ih =>
    intro _ x
    cases M' with
    | nil => simp [chainSum]
    | cons b M'' =>
      have hgoal : (a :: b :: M'') ++ [x] = a :: b :: (M'' ++ [x]) := rfl
      have hstep : chainSum f (a :: b :: (M'' ++ [x])) =
          f a b + chainSum f ((b :: M'') ++ [x]) := rfl
      rw [hgoal, hstep, ih (List.cons_ne_nil b M'') x,
        List.getLast_cons (List.cons_ne_nil b M'')]
      have hc : chainSum f (a :: b :: M'') = f a b + chainSum f (b :: M'') := rfl
      rw [hc]
      ring

theorem chainSum_reverse (f : Node → Node → ℚ) (hf : ∀ a b, f b a = - f a b) :
    ∀ L : List Node, chainSum f L.reverse = - chainSum f L := by
  intro L
  induction L with
  | nil => simp [chainSum]
  | cons a L' ih =>
    cases L' with
    | nil => simp [chainSum]
    | cons b L'' =>
      rw [List.reverse_cons,
        chainSum_concat f (List.reverse (b :: L'')) (by simp) a, ih,
        List.getLast_reverse (by simp)]
      have hc : chainSum f (a :: b :: L'') = f a b + chainSum f (b :: L'') := rfl
      rw [hc, List.head_cons, hf b a]
      ring

theorem cyclicSum_reverse (f : Node → Node → ℚ) (hf : ∀ a b, f b a = - f a b)
    (L : List Node) : cyclicSum f L.reverse = - cyclicSum f L := by
  rcases eq_or_ne L [] with rfl | hne
  · simp [cyclicSum, cyclicPairs]
  · have hrev : L.reverse ≠ [] := by simpa using hne
    rw [cyclicSum_nonempty f L.reverse hrev, cyclicSum_nonempty f L hne,
      chainSum_reverse f hf L, List.getLast_reverse hrev, List.head_reverse hrev,
      hf (L.getLast hne) (L.head hne)]
    ring

/-- C6: reversing the node list negates the signed Shoelace area, for every
node list and every (total) coordinate map. -/
theorem calculate_polygon_area_reverse (L : List Node) (coords_dict : Node → Coord) :
    calculate_polygon_area L.reverse coords_dict = - calculate_polygon_area L coords_dict := by
  unfold calculate_polygon_area
  rw [cyclicSum_reverse (shoelaceTerm coords_dict)
    (fun a b => by unfold shoelaceTerm; ring) L]
  ring

theorem cyclicSum_rotate_one (f : Node → Node → ℚ) (L : List Node) :
    cyclicSum f (L.rotate 1) = cyclicSum f L := by
  cases L with
  | nil => simp
  | cons a t =>
    rw [show (a :: t).rotate 1 = t ++ [a] from by simpa using List.rotate_cons_succ t a 0]
    cases t with
    | nil => simp
    | cons b t' =>
      have h1 : (b :: t') ++ [a] = b :: (t' ++ [a]) := rfl
      rw [h1, cyclicSum_cons f b (t' ++ [a]), cyclicSum_cons f a (b :: t')]
      have h2 : chainSum f (b :: (t' ++ [a])) = chainSum f ((b :: t') ++ [a]) := rfl
      rw [h2, chainSum_concat f (b :: t') (List.cons_ne_nil b t') a,
        List.getLast_cons (List.cons_ne_nil b t')]
      have h3 : (b :: (t' ++ [a])).getLast (List.cons_ne_nil b (t' ++ [a])) = a := by
        simp
      rw [h3]
      have h4 : chainSum f (a :: b :: t') = f a b + chainSum f (b :: t') := rfl
      rw [h4]
      ring

theorem cyclicSum_rotate (f : Node → Node → ℚ) (L : List Node) (k : ℕ) :
    cyclicSum f (L.rotate k) = cyclicSum f L := by
  induction k with
  | zero => rw [List.rotate_zero]
  | succ k ih =>
    rw [show L.rotate (k + 1) = (L.rotate k).rotate 1 from (List.rotate_rotate L k 1).symm,
      cyclicSum_rotate_one, ih]

theorem getLastToList_eq_drop :
    ∀ l : List Node, l.getLast?.toList = l.drop (l.length - 1)
  | [] => rfl
  | [_] => rfl
  | a :: b :: t => by
    have h1 : (a :: b :: t).getLast? = (b :: t).getLast? := List.getLast?_cons_cons
    have h2 : (a :: b :: t).drop ((a :: b :: t).length - 1) =
        (b :: t).drop ((b :: t).length - 1) := by
      simp only [List.length_cons, Nat.add_sub_cancel, List.drop_succ_cons]
    rw [h1, h2, getLastToList_eq_drop (b :: t)]

theorem rotLastFront_eq_rotate (L : List Node) :
    rotLastFront L = L.rotate (L.length - 1) := by
  rcases eq_or_ne L [] with rfl | hne
  · rfl
  · unfold rotLastFront
    rw [List.rotate_eq_drop_append_take (by omega), ← getLastToList_eq_drop,
      List.dropLast_eq_take]

/-- C10: the signed Shoelace area is invariant under cyclic rotation of the
node list by any integer number of positions; in particular the
canonicalising rotation applied by `to_node_list` never changes the
computed area. -/
theorem calculate_polygon_area_rotate (L : List Node) (coords_dict : Node → Coord) (k : ℤ) :
    calculate_polygon_area (rotateInt L k) coords_dict =
        calculate_polygon_area L coords_dict ∧
    calculate_polygon_area (rotLastFront L) coords_dict =
        calculate_polygon_area L coords_dict := by
  constructor
  · unfold calculate_polygon_area rotateInt
    rw [cyclicSum_rotate]
  · unfold calculate_polygon_area
    rw [rotLastFront_eq_rotate, cyclicSum_rotate]

theorem shoelaceTwiceZ_pos_iff (L : List Node) (c : Node → RF.ICoord) :
    0 < RF.shoelaceTwiceZ L c ↔
      0 < calculate_polygon_area L (fun n => (((c n).1 : ℚ), ((c n).2 : ℚ))) := by
  have hcast : ((RF.shoelaceTwiceZ L c : ℤ) : ℚ) =
      cyclicSum (shoelaceTerm (fun n => (((c n).1 : ℚ), ((c n).2 : ℚ)))) L := by
    unfold RF.shoelaceTwiceZ cyclicSum
    rw [Int.cast_list_sum, List.map_map]
    apply congrArg List.sum
    apply List.map_congr_left
    intro p _
    simp only [Function.comp_apply]
    unfold RF.cross shoelaceTerm
    push_cast
    ring
  unfold calculate_polygon_area
  rw [← hcast]
  constructor
  · intro h
    have h2 : (0 : ℚ) < ((RF.shoelaceTwiceZ L c : ℤ) : ℚ) := by exact_mod_cast h
    linarith
  · intro h
    have h2 : (0 : ℚ) < ((RF.shoelaceTwiceZ L c : ℤ) : ℚ) := by linarith
    exact_mod_cast h2

theorem cyclicPairs_length (L : List Node) : (cyclicPairs L).length = L.length := by
  unfold cyclicPairs
  rw [List.length_zip, List.length_rotate, Nat.min_self]

theorem cyclicPairs_get (L : List Node) (i : Fin (cyclicPairs L).length) :
    (cyclicPairs L).get i =
      (L.get ⟨(i : ℕ), by rw [← cyclicPairs_length L]; exact i.isLt⟩,
       L.get ⟨((i : ℕ) + 1) % L.length,
         Nat.mod_lt _ (by rw [← cyclicPairs_length L]; exact i.pos)⟩) := by
  unfold cyclicPairs at i ⊢
  rw [List.get_zip, List.get_rotate]

theorem mem_node_list_to_edges (L : List Node) (e : Finset Node) :
    e ∈ node_list_to_edges L true ↔ ∃ i : Fin L.length, e = ringEdge L i := by
  unfold node_list_to_edges
  rw [if_pos rfl, List.mem_toFinset, List.mem_map]
  constructor
  · rintro ⟨p, hp, rfl⟩
    rcases List.mem_iff_get.mp hp with ⟨i, rfl⟩
    refine ⟨⟨(i : ℕ), by rw [← cyclicPairs_length L]; exact i.isLt⟩, ?_⟩
    rw [cyclicPairs_get]
    rfl
  · rintro ⟨i, rfl⟩
    refine ⟨(cyclicPairs L).get ⟨(i : ℕ), by rw [cyclicPairs_length]; exact i.isLt⟩,
      List.get_mem _ _ _, ?_⟩
    rw [cyclicPairs_get]
    rfl

theorem nodes_node_list_to_edges (L : List Node) :
    (node_list_to_edges L true).sup id = L.toFinset := by
  ext x
  rw [Finset.mem_sup, List.mem_toFinset]
  constructor
  · rintro ⟨e, he, hx⟩
    rcases (mem_node_list_to_edges L e).mp he with ⟨i, rfl⟩
    simp only [id_eq] at hx
    rcases Finset.mem_insert.mp hx with rfl | hx
    · exact List.get_mem _ _ _
    · rw [Finset.mem_singleton] at hx
      subst hx
      exact List.get_mem _ _ _
  · intro hx
    rcases List.mem_iff_get.mp hx with ⟨i, rfl⟩
    exact ⟨ringEdge L i, (mem_node_list_to_edges L _).mpr ⟨i, rfl⟩,
      Finset.mem_insert_self _ _⟩

theorem finset_pair_eq {a b c d : ℕ} (h : ({a, b} : Finset ℕ) = {c, d}) :
    (a = c ∧ b = d) ∨ (a = d ∧ b = c) := by
  have ha : a = c ∨ a = d := by
    have h1 : a ∈ ({c, d} : Finset ℕ) := by rw [← h]; simp
    simpa using h1
  have hb : b = c ∨ b = d := by
    have h1 : b ∈ ({c, d} : Finset ℕ) := by rw [← h]; simp
    simpa using h1
  have hc : c = a ∨ c = b := by
    have h1 : c ∈ ({a, b} : Finset ℕ) := by rw [h]; simp
    simpa using h1
  have hd : d = a ∨ d = b := by
    have h1 : d ∈ ({a, b} : Finset ℕ) := by rw [h]; simp
    simpa using h1
  omega

theorem ringEdge_injective (L : List Node) (hnd : L.Nodup) (hlen : 3 ≤ L.length) :
    Function.Injective (ringEdge L) := by
  intro i j hij
  have hinj : Function.Injective L.get := List.nodup_iff_injective_get.mp hnd
  unfold ringEdge at hij
  rcases finset_pair_eq hij with ⟨h1, h2⟩ | ⟨h1, h2⟩
  · exact hinj h1
  · exfalso
    have e1 : (i : ℕ) = ((j : ℕ) + 1) % L.length := congrArg Fin.val (hinj h1)
    have e2 : ((i : ℕ) + 1) % L.length = (j : ℕ) := congrArg Fin.val (hinj h2)
    have hjlt : (j : ℕ) < L.length := j.isLt
    have hj : ((j : ℕ) + 1 + 1) % L.length = (j : ℕ) := by
      conv_rhs => rw [← e2]
      rw [e1, Nat.mod_add_mod]
    rcases Nat.lt_or_ge ((j : ℕ) + 1 + 1) L.length with hlt | hge
    · rw [Nat.mod_eq_of_lt hlt] at hj
      omega
    · have hsub : ((j : ℕ) + 1 + 1) % L.length = (j : ℕ) + 1 + 1 - L.length := by
        rw [Nat.mod_eq_sub_mod hge, Nat.mod_eq_of_lt (by omega)]
      omega

theorem node_list_to_edges_eq_image (L : List Node) :
    node_list_to_edges L true = Finset.image (ringEdge L) Finset.univ := by
  ext e
  rw [mem_node_list_to_edges, Finset.mem_image]
  constructor
  · rintro ⟨i, rfl⟩
    exact ⟨i, Finset.mem_univ i, rfl⟩
  · rintro ⟨i, -, rfl⟩
    exact ⟨i, rfl⟩

theorem card_node_list_to_edges (L : List Node) (hnd : L.Nodup) (hlen : 3 ≤ L.length) :
    (node_list_to_edges L true).card = L.length := by
  rw [node_list_to_edges_eq_image,
    Finset.card_image_of_injective _ (ringEdge_injective L hnd hlen),
    Finset.card_univ, Fintype.card_fin]

theorem mod_helper_pred (n j : ℕ) (hj : j < n) :
    ((j + (n - 1)) % n + 1) % n = j := by
  rw [Nat.mod_add_mod, show j + (n - 1) + 1 = j + n from by omega, Nat.add_mod_right,
    Nat.mod_eq_of_lt hj]

theorem succ_mod_inv (n i j : ℕ) (hi : i < n) (hj : j < n)
    (h : (i + 1) % n = j) : i = (j + (n - 1)) % n := by
  rcases Nat.lt_or_ge (i + 1) n with hlt | hge
  · rw [Nat.mod_eq_of_lt hlt] at h
    subst h
    rw [show i + 1 + (n - 1) = i + n from by omega, Nat.add_mod_right, Nat.mod_eq_of_lt hi]
  · have hn : i + 1 = n := by omega
    rw [hn, Nat.mod_self] at h
    subst h
    rw [Nat.zero_add, Nat.mod_eq_of_lt (by omega)]
    omega

theorem filter_incident (L : List Node) (hnd : L.Nodup) (hlen : 3 ≤ L.length)
    (j : Fin L.length) :
    (node_list_to_edges L true).filter (fun e => L.get j ∈ e) =
      {ringEdge L ⟨((j : ℕ) + (L.length - 1)) % L.length, Nat.mod_lt _ j.pos⟩,
       ringEdge L j} := by
  have hinj : Function.Injective L.get := List.nodup_iff_injective_get.mp hnd
  ext e
  rw [Finset.mem_filter, mem_node_list_to_edges, Finset.mem_insert, Finset.mem_singleton]
  constructor
  · rintro ⟨⟨i, rfl⟩, hmem⟩
    unfold ringEdge at hmem
    rcases Finset.mem_insert.mp hmem with h1 | h1
    · right
      exact congrArg (ringEdge L) (hinj h1).symm
    · left
      rw [Finset.mem_singleton] at h1
      have hv : (j : ℕ) = ((i : ℕ) + 1) % L.length := congrArg Fin.val (hinj h1)
      refine congrArg (ringEdge L) (Fin.ext ?_)
      exact succ_mod_inv L.length (i : ℕ) (j : ℕ) i.isLt j.isLt hv.symm
  · rintro (rfl | rfl)
    · refine ⟨⟨_, rfl⟩, ?_⟩
      unfold ringEdge
      refine Finset.mem_insert_of_mem (Finset.mem_singleton.mpr ?_)
      refine congrArg L.get (Fin.ext ?_)
      exact (mod_helper_pred L.length (j : ℕ) j.isLt).symm
    · exact ⟨⟨j, rfl⟩, Finset.mem_insert_self _ _⟩

theorem sup_incident (L : List Node) (hnd : L.Nodup) (hlen : 3 ≤ L.length)
    (j : Fin L.length) :
    ((node_list_to_edges L true).filter (fun e => L.get j ∈ e)).sup id =
      {L.get ⟨((j : ℕ) + (L.length - 1)) % L.length, Nat.mod_lt _ j.pos⟩,
       L.get j,
       L.get ⟨((j : ℕ) + 1) % L.length, Nat.mod_lt _ j.pos⟩} := by
  rw [filter_incident L hnd hlen j, Finset.sup_insert, Finset.sup_singleton]
  unfold ringEdge
  have hidx : (⟨(((j : ℕ) + (L.length - 1)) % L.length + 1) % L.length,
      Nat.mod_lt _ j.pos⟩ : Fin L.length) = j :=
    Fin.ext (mod_helper_pred L.length (j : ℕ) j.isLt)
  rw [hidx]
  ext x
  simp only [id_eq, Finset.sup_eq_union, Finset.mem_union, Finset.mem_insert,
    Finset.mem_singleton]
  tauto

theorem getLast?_take (L : List Node) (m : ℕ) (h1 : 0 < m) (h2 : m ≤ L.length) :
    (L.take m).getLast? = some (L.get ⟨m - 1, by omega⟩) := by
  conv_lhs => rw [show m = (m - 1) + 1 from by omega]
  rw [← List.take_concat_get' L (m - 1) (by omega), List.getLast?_concat]
  simp [List.get_eq_getElem]

theorem mem_toFinset_take (L : List Node) (hnd : L.Nodup) (m : ℕ) (i : Fin L.length) :
    L.get i ∈ (L.take m).toFinset ↔ (i : ℕ) < m := by
  have hinj : Function.Injective L.get := List.nodup_iff_injective_get.mp hnd
  rw [List.mem_toFinset]
  constructor
  · intro hmem
    rcases List.mem_iff_get.mp hmem with ⟨t, ht⟩
    rw [List.get_take'] at ht
    have hval : (t : ℕ) = (i : ℕ) := congrArg Fin.val (hinj ht)
    have htlt : (t : ℕ) < m :=
      lt_of_lt_of_le t.isLt (by rw [List.length_take]; exact Nat.min_le_left m L.length)
    omega
  · intro him
    have h2 : (L.take m).get ⟨(i : ℕ), by rw [List.length_take]; omega⟩ = L.get i := by
      rw [List.get_take']
    rw [← h2]
    exact List.get_mem _ _ _

theorem fmin_singleton (a : ℕ) : fmin ({a} : Finset ℕ) = some a := by
  unfold fmin
  rw [dif_pos ⟨a, Finset.mem_singleton_self a⟩]
  simp

theorem fmin_pair {a b : ℕ} (h : a < b) : fmin ({a, b} : Finset ℕ) = some a := by
  unfold fmin
  rw [dif_pos ⟨a, Finset.mem_insert_self a {b}⟩]
  congr 1
  refine le_antisymm (Finset.min'_le _ a (Finset.mem_insert_self a {b})) ?_
  refine Finset.le_min' _ _ _ ?_
  intro y hy
  rcases Finset.mem_insert.mp hy with rfl | hy
  · exact le_refl y
  · rw [Finset.mem_singleton] at hy
    omega

theorem tnlLoop_succ (edges : Finset (Finset Node)) (fuel : ℕ) (nl : List Node)
    (seen : Finset Node) (last next : Node) (hlast : nl.getLast? = some last)
    (hnext : nextNode edges last seen = some next) :
    tnlLoop edges (fuel + 1) nl seen =
      tnlLoop edges fuel (nl ++ [next]) (nl ++ [next]).toFinset := by
  simp only [tnlLoop]
  rw [hlast]
  show (match nextNode edges last seen with
    | none => none
    | some next_node =>
        tnlLoop edges fuel (nl ++ [next_node]) (nl ++ [next_node]).toFinset) =
    tnlLoop edges fuel (nl ++ [next]) (nl ++ [next]).toFinset
  rw [hnext]

theorem sdiff_three (L : List Node) (hnd : L.Nodup) (a b c : Fin L.length) (m : ℕ)
    (ha : (a : ℕ) < m) (hb : (b : ℕ) < m) (hc : ¬ (c : ℕ) < m) :
    ({L.get a, L.get b, L.get c} : Finset Node) \ (L.take m).toFinset = {L.get c} := by
  ext x
  simp only [Finset.mem_sdiff, Finset.mem_insert, Finset.mem_singleton]
  constructor
  · rintro ⟨hx1 | hx1 | hx1, hx2⟩
    · exact absurd ((mem_toFinset_take L hnd m a).mpr ha) (hx1 ▸ hx2)
    · exact absurd ((mem_toFinset_take L hnd m b).mpr hb) (hx1 ▸ hx2)
    · exact hx1
  · rintro rfl
    exact ⟨Or.inr (Or.inr rfl), fun hmem => hc ((mem_toFinset_take L hnd m c).mp hmem)⟩

theorem tnlLoop_take (L : List Node) (hnd : L.Nodup) (hlen : 3 ≤ L.length) :
    ∀ f : ℕ, f ≤ L.length - 2 →
      tnlLoop (node_list_to_edges L true) f (L.take (L.length - f))
        (L.take (L.length - f)).toFinset = some L := by
  intro f
  induction f with
  | zero =>
    intro _
    rw [Nat.sub_zero, List.take_length]
    rfl
  | succ f ih =>
    intro hf
    have hm1 : 0 < L.length - (f + 1) := by omega
    have hm2 : L.length - (f + 1) ≤ L.length := by omega
    have hjlt : L.length - (f + 1) - 1 < L.length := by omega
    have hclt : L.length - (f + 1) < L.length := by omega
    have hprev : ((L.length - (f + 1) - 1) + (L.length - 1)) % L.length
        = L.length - f - 3 := by
      rw [show (L.length - (f + 1) - 1) + (L.length - 1)
          = (L.length - f - 3) + L.length from by omega,
        Nat.add_mod_right, Nat.mod_eq_of_lt (by omega)]
    have hnexti : ((L.length - (f + 1) - 1) + 1) % L.length = L.length - (f + 1) := by
      rw [show (L.length - (f + 1) - 1) + 1 = L.length - (f + 1) from by omega,
        Nat.mod_eq_of_lt hclt]
    have hnext : nextNode (node_list_to_edges L true)
        (L.get ⟨L.length - (f + 1) - 1, hjlt⟩)
        (L.take (L.length - (f + 1))).toFinset
        = some (L.get ⟨L.length - (f + 1), hclt⟩) := by
      unfold nextNode
      rw [sup_incident L hnd hlen ⟨L.length - (f + 1) - 1, hjlt⟩,
        sdiff_three L hnd _ _ _ (L.length - (f + 1))
          (by show (L.length - (f + 1) - 1 + (L.length - 1)) % L.length < L.length - (f + 1)
              rw [hprev]; omega)
          (by show L.length - (f + 1) - 1 < L.length - (f + 1); omega)
          (by show ¬ ((L.length - (f + 1) - 1 + 1) % L.length < L.length - (f + 1))
              rw [hnexti]; omega),
        fmin_singleton]
      exact congrArg some (congrArg L.get (Fin.ext hnexti))
    rw [tnlLoop_succ (node_list_to_edges L true) f (L.take (L.length - (f + 1)))
      ((L.take (L.length - (f + 1))).toFinset) (L.get ⟨L.length - (f + 1) - 1, hjlt⟩)
      (L.get ⟨L.length - (f + 1), hclt⟩)
      (getLast?_take L (L.length - (f + 1)) hm1 hm2) hnext]
    have hcat : L.take (L.length - (f + 1)) ++ [L.get ⟨L.length - (f + 1), hclt⟩]
        = L.take (L.length - f) := by
      rw [show L.length - f = (L.length - (f + 1)) + 1 from by omega,
        ← List.take_concat_get' L (L.length - (f + 1)) hclt]
      simp [List.get_eq_getElem]
    rw [hcat]
    exact ih (by omega)

theorem tnlLoop_walk (L : List Node) (hnd : L.Nodup) (hlen : 3 ≤ L.length)
    (hdir : L.get ⟨1, by omega⟩ < L.get ⟨L.length - 1, by omega⟩) :
    tnlLoop (node_list_to_edges L true) (L.length - 1)
      [L.get ⟨0, by omega⟩] ([L.get ⟨0, by omega⟩] : List Node).toFinset = some L := by
  have h0lt : 0 < L.length := by omega
  have h1lt : 1 < L.length := by omega
  have hn1lt : L.length - 1 < L.length := by omega
  have hinj : Function.Injective L.get := List.nodup_iff_injective_get.mp hnd
  have hnext : nextNode (node_list_to_edges L true) (L.get ⟨0, h0lt⟩)
      ([L.get ⟨0, h0lt⟩] : List Node).toFinset = some (L.get ⟨1, h1lt⟩) := by
    unfold nextNode
    rw [sup_incident L hnd hlen ⟨0, h0lt⟩]
    have hp : (⟨(((⟨0, h0lt⟩ : Fin L.length) : ℕ) + (L.length - 1)) % L.length,
        Nat.mod_lt _ (Fin.pos ⟨0, h0lt⟩)⟩ : Fin L.length) = ⟨L.length - 1, hn1lt⟩ := by
      refine Fin.ext ?_
      show (0 + (L.length - 1)) % L.length = L.length - 1
      rw [Nat.zero_add, Nat.mod_eq_of_lt hn1lt]
    have hq : (⟨(((⟨0, h0lt⟩ : Fin L.length) : ℕ) + 1) % L.length,
        Nat.mod_lt _ (Fin.pos ⟨0, h0lt⟩)⟩ : Fin L.length) = ⟨1, h1lt⟩ := by
      refine Fin.ext ?_
      show (0 + 1) % L.length = 1
      rw [Nat.zero_add, Nat.mod_eq_of_lt h1lt]
    rw [hp, hq]
    have hset : ({L.get ⟨L.length - 1, hn1lt⟩, L.get ⟨0, h0lt⟩, L.get ⟨1, h1lt⟩} : Finset Node)
        \ ([L.get ⟨0, h0lt⟩] : List Node).toFinset
        = {L.get ⟨1, h1lt⟩, L.get ⟨L.length - 1, hn1lt⟩} := by
      ext x
      simp only [Finset.mem_sdiff, Finset.mem_insert, Finset.mem_singleton,
        List.toFinset_cons, List.toFinset_nil, insert_emptyc_eq]
      constructor
      · rintro ⟨hx1 | hx1 | hx1, hx2⟩
        · exact Or.inr hx1
        · exact absurd hx1 hx2
        · exact Or.inl hx1
      · rintro (rfl | rfl)
        · refine ⟨Or.inr (Or.inr rfl), fun he => ?_⟩
          have := hinj he
          simp at this
        · refine ⟨Or.inl rfl, fun he => ?_⟩
          have := hinj he
          have hv : L.length - 1 = 0 := congrArg Fin.val this
          omega
    rw [hset, fmin_pair hdir]
  rw [show L.length - 1 = (L.length - 2) + 1 from by omega,
    tnlLoop_succ (node_list_to_edges L true) (L.length - 2) _ _
      (L.get ⟨0, h0lt⟩) (L.get ⟨1, h1lt⟩) (by simp) hnext]
  have hcat : [L.get ⟨0, h0lt⟩] ++ [L.get ⟨1, h1lt⟩]
      = L.take (L.length - (L.length - 2)) := by
    rw [show L.length - (L.length - 2) = 2 from by omega]
    rcases L with _ | ⟨a, _ | ⟨b, t⟩⟩
    · simp at h0lt
    · simp at h1lt
    · rfl
  rw [hcat]
  exact tnlLoop_take L hnd hlen (L.length - 2) (by omega)

theorem cyclicPairs_rotate (L : List Node) (k : ℕ) :
    cyclicPairs (L.rotate k) = (cyclicPairs L).rotate k := by
  apply List.ext_get
  · rw [cyclicPairs_length, List.length_rotate, List.length_rotate, cyclicPairs_length]
  · intro t h1 h2
    rw [cyclicPairs_get (L.rotate k) ⟨t, h1⟩, List.get_rotate (cyclicPairs L),
      cyclicPairs_get L, List.get_rotate L, List.get_rotate L, Prod.ext_iff]
    constructor
    · refine congrArg L.get (Fin.ext ?_)
      simp only [cyclicPairs_length]
    · refine congrArg L.get (Fin.ext ?_)
      simp only [cyclicPairs_length, List.length_rotate, Nat.mod_add_mod]
      congr 1
      omega

theorem node_list_to_edges_rotate (L : List Node) (k : ℕ) :
    node_list_to_edges (L.rotate k) true = node_list_to_edges L true := by
  unfold node_list_to_edges
  rw [if_pos rfl, if_pos rfl, cyclicPairs_rotate, List.map_rotate]
  exact List.toFinset_eq_of_perm _ _ (List.rotate_perm _ k)

theorem node_list_to_edges_reverse (L : List Node) :
    node_list_to_edges L.reverse true = node_list_to_edges L true := by
  have hsub : ∀ M : List Node,
      node_list_to_edges M.reverse true ⊆ node_list_to_edges M true := by
    intro M e he
    rcases (mem_node_list_to_edges M.reverse e).mp he with ⟨i, rfl⟩
    have hrl : M.reverse.length = M.length := List.length_reverse M
    have hilt : (i : ℕ) < M.length := hrl ▸ i.isLt
    have hpos : 0 < M.length := by omega
    unfold ringEdge
    rcases Nat.lt_or_ge ((i : ℕ) + 1) M.length with hlt | hge
    · refine (mem_node_list_to_edges M _).mpr
        ⟨⟨M.length - 1 - ((i : ℕ) + 1), by omega⟩, ?_⟩
      unfold ringEdge
      have hA : M.reverse.get i = M.get ⟨M.length - 1 - (i : ℕ), by omega⟩ :=
        List.get_reverse' M i (by omega)
      have hB : M.reverse.get ⟨((i : ℕ) + 1) % M.reverse.length, Nat.mod_lt _ i.pos⟩
          = M.get ⟨M.length - 1 - ((i : ℕ) + 1), by omega⟩ := by
        have hfe : (⟨((i : ℕ) + 1) % M.reverse.length, Nat.mod_lt _ i.pos⟩
            : Fin M.reverse.length) = ⟨(i : ℕ) + 1, by omega⟩ := by
          refine Fin.ext ?_
          show ((i : ℕ) + 1) % M.reverse.length = (i : ℕ) + 1
          exact Nat.mod_eq_of_lt (by omega)
        rw [hfe, List.get_reverse' M _ (by omega)]
      have hC : M.get ⟨((M.length - 1 - ((i : ℕ) + 1)) + 1) % M.length, Nat.mod_lt _ hpos⟩
          = M.get ⟨M.length - 1 - (i : ℕ), by omega⟩ := by
        refine congrArg M.get (Fin.ext ?_)
        show ((M.length - 1 - ((i : ℕ) + 1)) + 1) % M.length = M.length - 1 - (i : ℕ)
        rw [show (M.length - 1 - ((i : ℕ) + 1)) + 1 = M.length - 1 - (i : ℕ) from by omega,
          Nat.mod_eq_of_lt (by omega)]
      rw [hA, hB]
      refine Eq.trans (Finset.pair_comm _ _) ?_
      congr 1
      exact congrArg (fun z => ({z} : Finset Node)) hC.symm
    · have hieq : (i : ℕ) = M.length - 1 := by omega
      refine (mem_node_list_to_edges M _).mpr ⟨⟨M.length - 1, by omega⟩, ?_⟩
      unfold ringEdge
      have hA : M.reverse.get i = M.get ⟨0, hpos⟩ := by
        have hfe : i = (⟨M.length - 1, by omega⟩ : Fin M.reverse.length) :=
          Fin.ext (by simpa using hieq)
        rw [hfe, List.get_reverse' M _ (by omega)]
        refine congrArg M.get (Fin.ext ?_)
        show M.length - 1 - (M.length - 1) = 0
        omega
      have hB : M.reverse.get ⟨((i : ℕ) + 1) % M.reverse.length, Nat.mod_lt _ i.pos⟩
          = M.get ⟨M.length - 1, by omega⟩ := by
        have hfe : (⟨((i : ℕ) + 1) % M.reverse.length, Nat.mod_lt _ i.pos⟩
            : Fin M.reverse.length) = ⟨0, by omega⟩ := by
          refine Fin.ext ?_
          show ((i : ℕ) + 1) % M.reverse.length = 0
          rw [show (i : ℕ) + 1 = M.reverse.length from by omega, Nat.mod_self]
        rw [hfe, List.get_reverse' M _ (by omega)]
        refine congrArg M.get (Fin.ext ?_)
        show M.length - 1 - 0 = M.length - 1
        omega
      have hC : M.get ⟨((M.length - 1 : ℕ) + 1) % M.length, Nat.mod_lt _ hpos⟩
          = M.get ⟨0, hpos⟩ := by
        refine congrArg M.get (Fin.ext ?_)
        show ((M.length - 1 : ℕ) + 1) % M.length = 0
        rw [show (M.length - 1 : ℕ) + 1 = M.length from by omega, Nat.mod_self]
      rw [hA, hB]
      refine Eq.trans (Finset.pair_comm _ _) ?_
      congr 1
      exact congrArg (fun z => ({z} : Finset Node)) hC.symm
  exact Finset.Subset.antisymm (hsub L)
    (by have h := hsub L.reverse
        rw [List.reverse_reverse] at h
        exact h)

theorem head?_eq_get_zero (X : List Node) (h : 0 < X.length) :
    X.head? = some (X.get ⟨0, h⟩) := by
  cases X with
  | nil => simp at h
  | cons a t => rfl

theorem isRotationOf_rotate {W A : List Node} (h : IsRotationOf W A) (k : ℕ) :
    IsRotationOf (W.rotate k) A := by
  rcases h with ⟨j, rfl⟩
  exact ⟨j + k, (List.rotate_rotate A j k).symm⟩

theorem isRotationOf_reverse {W A : List Node} (h : IsRotationOf W A) :
    IsRotationOf W.reverse A.reverse := by
  rcases h with ⟨k, rfl⟩
  exact ⟨A.length - k % A.length, (List.reverse_rotate A k).symm⟩

theorem rawNodeList_ring (s : ShapeN) (L : List Node)
    (hE : s.edges = node_list_to_edges L true) (hnd : L.Nodup) (hlen : 3 ≤ L.length) :
    ∃ W m, s.rawNodeList = some W ∧ fmin s.nodes = some m ∧ W.head? = some m ∧
      (IsRotationOf W L ∨ IsRotationOf W L.reverse) := by
  have h0 : 0 < L.length := by omega
  have hnodes : s.nodes = L.toFinset := by
    unfold Shape.nodes
    rw [hE, nodes_node_list_to_edges]
  have hnonempty : L.toFinset.Nonempty :=
    ⟨L.get ⟨0, h0⟩, List.mem_toFinset.mpr (List.get_mem _ _ _)⟩
  have hmin : fmin s.nodes = some (L.toFinset.min' hnonempty) := by
    rw [hnodes]
    unfold fmin
    rw [dif_pos hnonempty]
  have hmem : L.toFinset.min' hnonempty ∈ L :=
    List.mem_toFinset.mp (L.toFinset.min'_mem hnonempty)
  rcases List.mem_iff_get.mp hmem with ⟨jf, hj⟩
  have hL1len : (L.rotate (jf : ℕ)).length = L.length := List.length_rotate L _
  have hL1nodup : (L.rotate (jf : ℕ)).Nodup := List.nodup_rotate.mpr hnd
  have hL1len3 : 3 ≤ (L.rotate (jf : ℕ)).length := by omega
  have hL1E : node_list_to_edges (L.rotate (jf : ℕ)) true = node_list_to_edges L true :=
    node_list_to_edges_rotate L _
  have hL1get0 : (L.rotate (jf : ℕ)).get ⟨0, by omega⟩ = L.toFinset.min' hnonempty := by
    rw [List.get_rotate]
    refine Eq.trans (congrArg L.get (Fin.ext ?_)) hj
    show ((0 : ℕ) + (jf : ℕ)) % L.length = (jf : ℕ)
    rw [Nat.zero_add, Nat.mod_eq_of_lt jf.isLt]
  have main : ∀ X : List Node, ∀ hX3 : 3 ≤ X.length, X.Nodup →
      node_list_to_edges X true = node_list_to_edges L true →
      X.get ⟨0, by omega⟩ = L.toFinset.min' hnonempty →
      X.get ⟨1, by omega⟩ < X.get ⟨X.length - 1, by omega⟩ →
      s.rawNodeList = some X := by
    intro X hX3 hXnd hXE hX0 hXdir
    unfold Shape.rawNodeList
    rw [hmin]
    show tnlLoop s.edges (s.edges.card - 1) [L.toFinset.min' hnonempty]
      ([L.toFinset.min' hnonempty] : List Node).toFinset = some X
    rw [hE, ← hXE, ← hX0, card_node_list_to_edges X hXnd hX3]
    exact tnlLoop_walk X hXnd hX3 hXdir
  have hane : (L.rotate (jf : ℕ)).get ⟨1, by omega⟩ ≠
      (L.rotate (jf : ℕ)).get ⟨(L.rotate (jf : ℕ)).length - 1, by omega⟩ := by
    intro h
    have hfe := List.nodup_iff_injective_get.mp hL1nodup h
    have hv : (1 : ℕ) = (L.rotate (jf : ℕ)).length - 1 := congrArg Fin.val hfe
    omega
  rcases Nat.lt_or_ge ((L.rotate (jf : ℕ)).get ⟨1, by omega⟩)
      ((L.rotate (jf : ℕ)).get ⟨(L.rotate (jf : ℕ)).length - 1, by omega⟩) with hdir | hge
  · refine ⟨L.rotate (jf : ℕ), L.toFinset.min' hnonempty,
      main _ hL1len3 hL1nodup hL1E hL1get0 hdir, hmin, ?_, Or.inl ⟨(jf : ℕ), rfl⟩⟩
    rw [head?_eq_get_zero _ (by omega)]
    exact congrArg some hL1get0
  · have hrevlen : (L.rotate (jf : ℕ)).reverse.length = L.length := by
      rw [List.length_reverse, List.length_rotate]
    have hL2len : ((L.rotate (jf : ℕ)).reverse.rotate (L.length - 1)).length = L.length := by
      rw [List.length_rotate, hrevlen]
    have hL2len3 : 3 ≤ ((L.rotate (jf : ℕ)).reverse.rotate (L.length - 1)).length := by omega
    have hL2nodup : ((L.rotate (jf : ℕ)).reverse.rotate (L.length - 1)).Nodup :=
      List.nodup_rotate.mpr (List.nodup_reverse.mpr hL1nodup)
    have hL2E : node_list_to_edges ((L.rotate (jf : ℕ)).reverse.rotate (L.length - 1)) true
        = node_list_to_edges L true := by
      rw [node_list_to_edges_rotate, node_list_to_edges_reverse, hL1E]
    have hL2get0 : ((L.rotate (jf : ℕ)).reverse.rotate (L.length - 1)).get ⟨0, by omega⟩
        = L.toFinset.min' hnonempty := by
      rw [List.get_rotate, List.get_reverse' _ _ (by omega)]
      refine Eq.trans (congrArg (L.rotate (jf : ℕ)).get (Fin.ext ?_)) hL1get0
      show (L.rotate (jf : ℕ)).length - 1
          - (((0 : ℕ) + (L.length - 1)) % (L.rotate (jf : ℕ)).reverse.length) = 0
      have hmod : ((0 : ℕ) + (L.length - 1)) % (L.rotate (jf : ℕ)).reverse.length
          = L.length - 1 := by
        rw [Nat.zero_add]
        exact Nat.mod_eq_of_lt (by omega)
      rw [hmod]
      omega
    have hL2get1 : ((L.rotate (jf : ℕ)).reverse.rotate (L.length - 1)).get ⟨1, by omega⟩
        = (L.rotate (jf : ℕ)).get ⟨(L.rotate (jf : ℕ)).length - 1, by omega⟩ := by
      rw [List.get_rotate, List.get_reverse' _ _ (by omega)]
      refine congrArg (L.rotate (jf : ℕ)).get (Fin.ext ?_)
      show (L.rotate (jf : ℕ)).length - 1
          - (((1 : ℕ) + (L.length - 1)) % (L.rotate (jf : ℕ)).reverse.length)
          = (L.rotate (jf : ℕ)).length - 1
      have hmod : ((1 : ℕ) + (L.length - 1)) % (L.rotate (jf : ℕ)).reverse.length = 0 := by
        rw [show (1 : ℕ) + (L.length - 1) = (L.rotate (jf : ℕ)).reverse.length from by omega,
          Nat.mod_self]
      rw [hmod]
      omega
    have hL2getlast : ((L.rotate (jf : ℕ)).reverse.rotate (L.length - 1)).get
        ⟨((L.rotate (jf : ℕ)).reverse.rotate (L.length - 1)).length - 1, by omega⟩
        = (L.rotate (jf : ℕ)).get ⟨1, by omega⟩ := by
      rw [List.get_rotate, List.get_reverse' _ _ (by omega)]
      refine congrArg (L.rotate (jf : ℕ)).get (Fin.ext ?_)
      show (L.rotate (jf : ℕ)).length - 1
          - ((((L.rotate (jf : ℕ)).reverse.rotate (L.length - 1)).length - 1 + (L.length - 1))
            % (L.rotate (jf : ℕ)).reverse.length) = 1
      have hmod : (((L.rotate (jf : ℕ)).reverse.rotate (L.length - 1)).length - 1
          + (L.length - 1)) % (L.rotate (jf : ℕ)).reverse.length = L.length - 2 := by
        rw [show ((L.rotate (jf : ℕ)).reverse.rotate (L.length - 1)).length - 1
            + (L.length - 1) = (L.length - 2) + (L.rotate (jf : ℕ)).reverse.length
            from by omega, Nat.add_mod_right]
        exact Nat.mod_eq_of_lt (by omega)
      rw [hmod]
      omega
    have hdir2 : ((L.rotate (jf : ℕ)).reverse.rotate (L.length - 1)).get ⟨1, by omega⟩
        < ((L.rotate (jf : ℕ)).reverse.rotate (L.length - 1)).get
          ⟨((L.rotate (jf : ℕ)).reverse.rotate (L.length - 1)).length - 1, by omega⟩ := by
      rw [hL2get1, hL2getlast]
      exact lt_of_le_of_ne hge (Ne.symm hane)
    refine ⟨(L.rotate (jf : ℕ)).reverse.rotate (L.length - 1), L.toFinset.min' hnonempty,
      main _ hL2len3 hL2nodup hL2E hL2get0 hdir2, hmin, ?_,
      Or.inr (isRotationOf_rotate (isRotationOf_reverse ⟨(jf : ℕ), rfl⟩) (L.length - 1))⟩
    rw [head?_eq_get_zero _ (by omega)]
    exact congrArg some hL2get0

theorem to_node_list_ring_master (s : ShapeN) (L : List Node)
    (hE : s.edges = node_list_to_edges L true) (hnd : L.Nodup) (hlen : 3 ≤ L.length) :
    ∃ W m, s.to_node_list = some W ∧ fmin s.nodes = some m ∧ W.head? = some m ∧
      (IsRotationOf W L ∨ IsRotationOf W L.reverse) ∧
      (s.coords_dict = none → s.rawNodeList = some W) ∧
      (∀ cd, s.coords_dict = some cd → 0 ≤ calculate_polygon_area W cd) := by
  rcases rawNodeList_ring s L hE hnd hlen with ⟨W0, m, hraw, hmin, hhead, hrot⟩
  unfold Shape.to_node_list
  rw [hraw]
  rcases hcd : s.coords_dict with _ | cd
  · exact ⟨W0, m, rfl, hmin, hhead, hrot, fun _ => rfl,
      fun cd h => Option.noConfusion h⟩
  · by_cases hneg : calculate_polygon_area W0 cd < 0
    · have harea : calculate_polygon_area (rotLastFront W0.reverse) cd
          = - calculate_polygon_area W0 cd := by
        rw [rotLastFront_eq_rotate]
        unfold calculate_polygon_area
        rw [cyclicSum_rotate,
          cyclicSum_reverse (shoelaceTerm cd) (fun a b => by unfold shoelaceTerm; ring)]
        ring
      refine ⟨rotLastFront W0.reverse, m, ?_, hmin, ?_, ?_, ?_, ?_⟩
      · show (if calculate_polygon_area W0 cd < 0 then some (rotLastFront W0.reverse)
            else some W0) = some (rotLastFront W0.reverse)
        rw [if_pos hneg]
      · unfold rotLastFront
        rw [List.getLast?_reverse, hhead]
        rfl
      · rcases hrot with h | h
        · right
          rw [rotLastFront_eq_rotate]
          exact isRotationOf_rotate (isRotationOf_reverse h) _
        · left
          rw [rotLastFront_eq_rotate]
          have h2 := isRotationOf_reverse h
          rw [List.reverse_reverse] at h2
          exact isRotationOf_rotate h2 _
      · intro hnone
        exact Option.noConfusion hnone
      · intro cd2 hcd2
        obtain rfl := Option.some.inj hcd2
        rw [harea]
        linarith
    · refine ⟨W0, m, ?_, hmin, hhead, hrot, ?_, ?_⟩
      · show (if calculate_polygon_area W0 cd < 0 then some (rotLastFront W0.reverse)
            else some W0) = some W0
        rw [if_neg hneg]
      · intro hnone
        exact Option.noConfusion hnone
      · intro cd2 hcd2
        obtain rfl := Option.some.inj hcd2
        linarith [not_lt.mp hneg]

/-- C5: for every Shape whose edge set forms a single simple ring (the edges
of some duplicate-free cyclic node list of length at least 3, so that every
node has degree exactly 2), `to_node_list` succeeds and returns a cyclic
ordering of that ring starting at the minimum node; absent coordinates it is
exactly the raw greedy smallest-unvisited-neighbour walk, and with
coordinates the returned ordering has non-negative signed area and still
begins with the minimum node after any reversal. -/
theorem to_node_list_simple_ring (s : ShapeN) (L : List Node)
    (hE : s.edges = node_list_to_edges L true) (hnd : L.Nodup) (hlen : 3 ≤ L.length) :
    ∃ W m, s.to_node_list = some W ∧ fmin s.nodes = some m ∧ W.head? = some m ∧
      (IsRotationOf W L ∨ IsRotationOf W L.reverse) ∧
      (s.coords_dict = none → s.rawNodeList = some W) ∧
      (∀ cd, s.coords_dict = some cd → 0 ≤ calculate_polygon_area W cd) :=
  to_node_list_ring_master s L hE hnd hlen

/-- Witness for C5: the triangle `[0, 1, 2]` with coordinates on a parabola. -/
theorem to_node_list_simple_ring_witness :
    ∃ W m, (Shape.mk (node_list_to_edges [0, 1, 2] true)
        (some fun n => ((n : ℚ), (n : ℚ) * (n : ℚ)))).to_node_list = some W ∧
      fmin (Shape.mk (node_list_to_edges [0, 1, 2] true)
        (some fun n => ((n : ℚ), (n : ℚ) * (n : ℚ)))).nodes = some m ∧
      W.head? = some m ∧
      (IsRotationOf W [0, 1, 2] ∨ IsRotationOf W ([0, 1, 2] : List Node).reverse) ∧
      ((Shape.mk (node_list_to_edges [0, 1, 2] true)
        (some fun n => ((n : ℚ), (n : ℚ) * (n : ℚ)))).coords_dict = none →
        (Shape.mk (node_list_to_edges [0, 1, 2] true)
          (some fun n => ((n : ℚ), (n : ℚ) * (n : ℚ)))).rawNodeList = some W) ∧
      (∀ cd, (Shape.mk (node_list_to_edges [0, 1, 2] true)
          (some fun n => ((n : ℚ), (n : ℚ) * (n : ℚ)))).coords_dict = some cd →
        0 ≤ calculate_polygon_area W cd) :=
  to_node_list_simple_ring _ [0, 1, 2] rfl (by decide) (by decide)

/-- C8: reconstructing a ring from its edge set — for every list `L` of at
least 3 distinct nodes, `Shape(node_list_to_edges(L)).to_node_list()`
returns a list that is a cyclic rotation of `L` or of its reversal. -/
theorem node_list_roundtrip (L : List Node) (hnd : L.Nodup) (hlen : 3 ≤ L.length) :
    ∃ W, (Shape.mk (node_list_to_edges L true) none).to_node_list = some W ∧
      (IsRotationOf W L ∨ IsRotationOf W L.reverse) := by
  rcases to_node_list_ring_master (Shape.mk (node_list_to_edges L true) none) L rfl hnd hlen
    with ⟨W, m, h1, h2, h3, h4, h5, h6⟩
  exact ⟨W, h1, h4⟩

/-- Witness for C8: the square `[0, 1, 2, 3]`. -/
theorem node_list_roundtrip_witness :
    ∃ W, (Shape.mk (node_list_to_edges [0, 1, 2, 3] true) none).to_node_list = some W ∧
      (IsRotationOf W [0, 1, 2, 3] ∨ IsRotationOf W ([0, 1, 2, 3] : List Node).reverse) :=
  node_list_roundtrip [0, 1, 2, 3] (by decide) (by decide)

end Rings
